import Mathlib

/-!
Verification of `synapse/lib/cache.py` (classes `Cache` and `KeyCache`) and of
the `BulkQueue` described by the specification (its source module
`synapse/lib/queue.py` is exercised by `synapse/tests/test_queue.py`).

Python dictionaries are embedded as association lists over `Nat` keys; Python
values relevant to the cache are embedded as the inductive type `PyVal`, with
`PyVal.emptyTuple` playing the role of the module-level sentinel `miss = ()`
(CPython interns the empty tuple, so `val is miss` holds exactly when the
value is the empty tuple).  Wall-clock timestamps are embedded as rationals,
and every operation that reads `time.time()` takes the current time as an
explicit argument.  Events fired on the event bus are accumulated in an
`events` list field.
-/

/-- Embedding of the Python values the cache stores and returns: the interned
empty tuple (the `miss` sentinel), `None`, integers, and strings. -/
inductive PyVal where
  | emptyTuple : PyVal
  | pynone : PyVal
  | pyint (n : Int) : PyVal
  | pystr (s : String) : PyVal
deriving DecidableEq, Repr

/-- The module-level sentinel `miss = ()` of `synapse/lib/cache.py`. -/
def missVal : PyVal := PyVal.emptyTuple

/-- Events fired on the `EventBus` by the cache: `cache:put`, `cache:flush`,
`cache:pop`, each carrying `key=` and `val=`. -/
inductive CEvent where
  | evtPut (key : Nat) (val : PyVal) : CEvent
  | evtFlush (key : Nat) (val : PyVal) : CEvent
  | evtPop (key : Nat) (val : PyVal) : CEvent
deriving DecidableEq, Repr

/-- `d.get(k, default)` on an association-list dictionary, without default:
return `some v` for the first matching key, else `none`. -/
def alookup {α : Type} (l : List (Nat × α)) (k : Nat) : Option α :=
  match l with
  | [] => none
  | (k2, v) :: rest => if k2 = k then some v else alookup rest k

/-- `d[k] = v` on an association-list dictionary: overwrite the first entry
with key `k`, or append a new entry. -/
def aset {α : Type} (l : List (Nat × α)) (k : Nat) (v : α) : List (Nat × α) :=
  match l with
  | [] => [(k, v)]
  | (k2, v2) :: rest => if k2 = k then (k2, v) :: rest else (k2, v2) :: aset rest k v

/-- The effect of `d.pop(k, default)` on the dictionary: remove the entries
with key `k`. -/
def aerase {α : Type} (l : List (Nat × α)) (k : Nat) : List (Nat × α) :=
  l.filter (fun p => !(p.1 == k))

/-- The list of keys of an association-list dictionary. -/
def keysOf {α : Type} (l : List (Nat × α)) : List Nat :=
  l.map Prod.fst

/-- Embedding of `synapse.lib.cache.Cache`: the `cache` and `lasthit` dicts,
the optional `onmiss` callback, `maxtime`, the `isfini` flag from the
`EventBus` base, the `schevt` field (an optional scheduler handle), and the
list of events fired so far. -/
structure Cache where
  cache : List (Nat × PyVal)
  lasthit : List (Nat × ℚ)
  onmiss : Option (Nat → PyVal)
  maxtime : Option ℚ
  isfini : Bool
  schevt : Option Nat
  events : List CEvent

/-- `Cache.__init__(maxtime, onmiss)`: empty dicts, `schevt = None`, not
finished, no events fired yet.  (The initial constructor-time
`_checkCacheTimes` call on the empty cache pops nothing and only schedules.) -/
def Cache.init (onmiss : Option (Nat → PyVal)) (maxtime : Option ℚ) : Cache :=
  { cache := [], lasthit := [], onmiss := onmiss, maxtime := maxtime,
    isfini := false, schevt := none, events := [] }

/-- `Cache.get(key)` at wall-clock time `now`: on a hit (stored value is not
the `miss` sentinel) bump `lasthit` and return the value; on a miss with no
`onmiss` return `None`; on a miss with `onmiss`, under `cachelock`, re-check
the dict, call `onmiss` if still missing, store the result, bump `lasthit`,
and return it.  No event is fired by `get`. -/
def Cache.get (c : Cache) (now : ℚ) (key : Nat) : PyVal × Cache :=
  let val := (alookup c.cache key).getD missVal
  if val ≠ missVal then
    (val, { c with lasthit := aset c.lasthit key now })
  else
    match c.onmiss with
    | none => (PyVal.pynone, c)
    | some f =>
      let v0 := (alookup c.cache key).getD missVal
      let v1 := if v0 = missVal then f key else v0
      (v1, { c with cache := aset c.cache key v1,
                    lasthit := aset c.lasthit key now })

/-- `Cache.put(key, val)` at time `now`: store, bump `lasthit`, fire
`cache:put`. -/
def Cache.put (c : Cache) (now : ℚ) (key : Nat) (val : PyVal) : Cache :=
  { c with cache := aset c.cache key val,
           lasthit := aset c.lasthit key now,
           events := c.events ++ [CEvent.evtPut key val] }

/-- `Cache.pop(key)`: `val = self.cache.pop(key, None)`, remove from
`lasthit`, fire `cache:flush` then `cache:pop` (both carrying `val`), return
`val`. -/
def Cache.pop (c : Cache) (key : Nat) : PyVal × Cache :=
  let val := (alookup c.cache key).getD PyVal.pynone
  (val, { c with cache := aerase c.cache key,
                 lasthit := aerase c.lasthit key,
                 events := c.events ++ [CEvent.evtFlush key val, CEvent.evtPop key val] })

/-- `Cache.flush(key)`: fire `cache:flush` with the current value (`None` if
absent) without removing anything. -/
def Cache.flush (c : Cache) (key : Nat) : PyVal × Cache :=
  let val := (alookup c.cache key).getD PyVal.pynone
  (val, { c with events := c.events ++ [CEvent.evtFlush key val] })

/-- `Cache.clear()`: flush every key, then clear both dicts. -/
def Cache.clear (c : Cache) : Cache :=
  let c2 := (keysOf c.cache).foldl (fun a k => (Cache.flush a k).2) c
  { c2 with cache := [], lasthit := [] }

/-- Pop every key of `ks` in order (the `[ self.pop(k) for k in hits ]` and
`for key in self.keys(): self.pop(key)` loops). -/
def popAllKeys (ks : List Nat) (c : Cache) : Cache :=
  ks.foldl (fun a k => (Cache.pop a k).2) c

/-- `Cache._checkCacheTimes()` at time `now`: with `maxtime` set, compute
`mintime = now - maxtime`, collect the keys whose `lasthit` is strictly below
it, pop each, and finally (unless `isfini` or `maxtime` is unset) re-schedule
itself `maxtime / 10` seconds later.  The returned option is the re-schedule
delay handed to `sched.insec`, `none` when no re-schedule happens. -/
def Cache.checkCacheTimes (c : Cache) (now : ℚ) : Cache × Option ℚ :=
  match c.maxtime with
  | none => (c, none)
  | some mt =>
    let mintime := now - mt
    let hits := keysOf (c.lasthit.filter (fun p => decide (p.2 < mintime)))
    let c2 := popAllKeys hits c
    if c2.isfini then (c2, none) else (c2, some (mt / 10))

/-- `Cache._onCacheFini()`: pop every key of `self.keys()`, then cancel
`self.schevt` if it is not `None`.  The returned option is the handle passed
to `sched.cancel`, `none` when no cancel call happens. -/
def Cache.onCacheFini (c : Cache) : Cache × Option Nat :=
  let c2 := popAllKeys (keysOf c.cache) c
  match c2.schevt with
  | some h => (c2, some h)
  | none => (c2, none)

/-- A user-level cache operation (the mutators named by the entries/lasthit
invariant; a completed miss resolution is the `opGet` case on an absent key
of a cache whose `onmiss` is set). -/
inductive CacheOp where
  | opPut (k : Nat) (v : PyVal) (now : ℚ) : CacheOp
  | opGet (k : Nat) (now : ℚ) : CacheOp
  | opPop (k : Nat) : CacheOp
  | opClear : CacheOp

/-- Apply one cache operation, discarding the returned value. -/
def applyCacheOp (c : Cache) : CacheOp → Cache
  | CacheOp.opPut k v now => Cache.put c now k v
  | CacheOp.opGet k now => (Cache.get c now k).2
  | CacheOp.opPop k => (Cache.pop c k).2
  | CacheOp.opClear => Cache.clear c

/-- Apply a sequence of cache operations in order. -/
def runCacheOps (c : Cache) (ops : List CacheOp) : Cache :=
  ops.foldl applyCacheOp c

/-- Embedding of `synapse.lib.cache.KeyCache` (a `collections.defaultdict`
subclass): the underlying dict, the fixed lookup callback `lookmeth`, and the
log of keys `lookmeth` has been invoked on. -/
structure KeyCache where
  data : List (Nat × PyVal)
  lookmeth : Nat → PyVal
  calls : List Nat

/-- `KeyCache(lookmeth)`: empty dict, no lookups performed. -/
def KeyCache.init (f : Nat → PyVal) : KeyCache :=
  { data := [], lookmeth := f, calls := [] }

/-- Indexed access `cache[key]`: a present key returns its stored value with
no state change; an absent key triggers `__missing__`, which calls
`lookmeth(key)`, stores the result, and returns it. -/
def KeyCache.getitem (c : KeyCache) (k : Nat) : PyVal × KeyCache :=
  match alookup c.data k with
  | some v => (v, c)
  | none =>
    let v := c.lookmeth k
    (v, { c with data := aset c.data k v, calls := c.calls ++ [k] })

/-- `KeyCache.get(key)` is `return self[key]`. -/
def KeyCache.get (c : KeyCache) (k : Nat) : PyVal × KeyCache :=
  KeyCache.getitem c k

/-- Apply a sequence of `get` accesses to a `KeyCache`, discarding values. -/
def runKeyGets (c : KeyCache) (ks : List Nat) : KeyCache :=
  ks.foldl (fun a k => (KeyCache.get a k).2) c

/-- Modelled from the spec: `synapse/lib/queue.py` (the `BulkQueue` class) is
not under `src/`, only its tests are.  Spec section 3 gives the data model:
`pending` (FIFO sequence), `lastConsumedAt`, and the `closed` flag. -/
structure BulkQueue (α : Type) where
  pending : List α
  lastConsumedAt : ℚ
  closed : Bool

/-- Modelled from the spec: `put(item)` appends one item to `pending`;
enqueue operations fail silently (no-op) once `closed` (spec section 4.6). -/
def BulkQueue.put {α : Type} (q : BulkQueue α) (x : α) : BulkQueue α :=
  if q.closed then q else { q with pending := q.pending ++ [x] }

/-- Modelled from the spec: `extend(items)` atomically appends an ordered
batch to `pending`; a no-op once `closed` (spec section 4.6). -/
def BulkQueue.extend {α : Type} (q : BulkQueue α) (xs : List α) : BulkQueue α :=
  if q.closed then q else { q with pending := q.pending ++ xs }

/-- Modelled from the spec: a successful `get` atomically drains and returns
the entire current contents of `pending` in order, clearing it and updating
`lastConsumedAt`; on timeout or closure with nothing pending it returns an
empty result (spec section 4.6). -/
def BulkQueue.get {α : Type} (q : BulkQueue α) (now : ℚ) : List α × BulkQueue α :=
  if q.pending.isEmpty then ([], q)
  else (q.pending, { q with pending := [], lastConsumedAt := now })

/-- Modelled from the spec: `hyber(sink)` exports the current contents of
`pending` to the sink without removing them from the queue (spec
section 4.6).  The exported snapshot is returned first. -/
def BulkQueue.hyber {α : Type} (q : BulkQueue α) : List α × BulkQueue α :=
  (q.pending, q)

/-- An enqueue operation on a `BulkQueue`. -/
inductive QOp (α : Type) where
  | qput (x : α) : QOp α
  | qextend (xs : List α) : QOp α

/-- The items an enqueue operation contributes, in order. -/
def QOp.items {α : Type} : QOp α → List α
  | QOp.qput x => [x]
  | QOp.qextend xs => xs

/-- Apply one enqueue operation. -/
def applyQOp {α : Type} (q : BulkQueue α) : QOp α → BulkQueue α
  | QOp.qput x => BulkQueue.put q x
  | QOp.qextend xs => BulkQueue.extend q xs

/-- Apply a sequence of enqueue operations in order. -/
def runQOps {α : Type} (q : BulkQueue α) (ops : List (QOp α)) : BulkQueue α :=
  ops.foldl applyQOp q

/-! ### Association-list lemmas -/

lemma alookup_aset_self {α : Type} (l : List (Nat × α)) (k : Nat) (v : α) :
    alookup (aset l k v) k = some v := by
  induction l with
  | nil => simp [aset, alookup]
  | cons p rest ih =>
    by_cases h : p.1 = k
    · simp [aset, alookup, h]
    · simp [aset, alookup, h, ih]

lemma keys_contains_cons {α : Type} (p : Nat × α) (rest : List (Nat × α))
    (k : Nat) :
    (keysOf (p :: rest)).contains k = (k == p.1 || (keysOf rest).contains k) := by
  show ((p.1 :: keysOf rest).contains k) = _
  rw [List.contains_cons]

lemma keysOf_aset {α : Type} (l : List (Nat × α)) (k : Nat) (v : α) :
    keysOf (aset l k v)
      = if (keysOf l).contains k then keysOf l else keysOf l ++ [k] := by
  induction l with
  | nil => simp [aset, keysOf]
  | cons p rest ih =>
    by_cases h : p.1 = k
    · rw [keys_contains_cons]
      have hk : (k == p.1) = true := by simp [h]
      simp [aset, h, keysOf, hk]
    · have hne : (k == p.1) = false := by
        simp only [beq_eq_false_iff_ne]
        exact fun he => h he.symm
      have h1 : keysOf (aset (p :: rest) k v) = p.1 :: keysOf (aset rest k v) := by
        simp [aset, h, keysOf]
      have h2 : keysOf (p :: rest) = p.1 :: keysOf rest := by simp [keysOf]
      rw [h1, ih, keys_contains_cons, hne, Bool.false_or, h2]
      split <;> rfl

lemma keysOf_aerase {α : Type} (l : List (Nat × α)) (k : Nat) :
    keysOf (aerase l k) = (keysOf l).filter (fun a => !(a == k)) := by
  induction l with
  | nil => simp [aerase, keysOf]
  | cons p rest ih =>
    by_cases h : (p.1 == k) = true
    · simpa [aerase, keysOf, List.filter_cons, h] using ih
    · simp only [aerase, keysOf, List.filter_cons, h] at ih ⊢
      simpa [h] using congrArg (p.1 :: ·) ih

lemma alookup_contains {α : Type} {l : List (Nat × α)} {k : Nat} {v : α}
    (h : alookup l k = some v) : (keysOf l).contains k = true := by
  induction l with
  | nil => simp [alookup] at h
  | cons p rest ih =>
    by_cases hp : p.1 = k
    · rw [keys_contains_cons]
      simp [hp]
    · simp only [alookup, if_neg hp] at h
      rw [keys_contains_cons, ih h, Bool.or_true]

lemma alookup_eq_none_iff {α : Type} (l : List (Nat × α)) (k : Nat) :
    alookup l k = none ↔ (keysOf l).contains k = false := by
  induction l with
  | nil => simp [alookup, keysOf]
  | cons p rest ih =>
    by_cases hp : p.1 = k
    · rw [keys_contains_cons]
      simp [alookup, hp]
    · have hne : (k == p.1) = false := by
        simp only [beq_eq_false_iff_ne]
        exact fun he => hp he.symm
      have hlk : alookup (p :: rest) k = alookup rest k := by
        simp [alookup, hp]
      rw [hlk, keys_contains_cons, hne, Bool.false_or, ih]

lemma aerase_of_not_contains {α : Type} {l : List (Nat × α)} {k : Nat}
    (h : (keysOf l).contains k = false) : aerase l k = l := by
  induction l with
  | nil => rfl
  | cons p rest ih =>
    rw [keys_contains_cons, Bool.or_eq_false_iff] at h
    have hkp : ¬ k = p.1 := by simpa using h.1
    have hp : (!(p.1 == k)) = true := by
      simpa using fun he : p.1 = k => hkp he.symm
    have hr : aerase rest k = rest := ih h.2
    show List.filter (fun q => !(q.1 == k)) (p :: rest) = p :: rest
    rw [List.filter_cons, if_pos hp]
    exact congrArg (p :: ·) hr

lemma alookup_mem {α : Type} {l : List (Nat × α)} {k : Nat} {v : α}
    (h : alookup l k = some v) : (k, v) ∈ l := by
  induction l with
  | nil => simp [alookup] at h
  | cons p rest ih =>
    by_cases hp : p.1 = k
    · simp only [alookup, if_pos hp] at h
      obtain ⟨a, b⟩ := p
      simp only at hp h
      subst hp
      injection h with h2
      subst h2
      exact List.mem_cons_self _ _
    · simp only [alookup, if_neg hp] at h
      exact List.mem_cons_of_mem _ (ih h)

lemma mem_alookup_of_nodup {α : Type} {l : List (Nat × α)} {k : Nat} {v : α}
    (hnd : (keysOf l).Nodup) (h : (k, v) ∈ l) : alookup l k = some v := by
  induction l with
  | nil => simp at h
  | cons p rest ih =>
    simp only [keysOf, List.map_cons, List.nodup_cons] at hnd
    rcases List.mem_cons.mp h with h1 | h2
    · cases h1; simp [alookup]
    · have hk : p.1 ≠ k := by
        intro he
        exact hnd.1 (he ▸ List.mem_map_of_mem Prod.fst h2)
      simp [alookup, hk, ih hnd.2 h2]

lemma alookup_filter_key {α : Type} (l : List (Nat × α)) (qk : Nat → Bool)
    (k : Nat) :
    alookup (l.filter (fun p => qk p.1)) k
      = if qk k then alookup l k else none := by
  induction l with
  | nil => simp [alookup]
  | cons p rest ih =>
    by_cases hp : p.1 = k
    · subst hp
      by_cases hq : qk p.1
      · simp [List.filter_cons, hq, alookup, ih]
      · simp only [List.filter_cons]
        rw [if_neg (by simpa using hq)]
        simp [alookup, ih, hq]
    · by_cases hq : qk p.1
      · simp [List.filter_cons, hq, alookup, hp, ih]
      · simp only [List.filter_cons]
        rw [if_neg (by simpa using hq)]
        simp [alookup, hp, ih]

/-! ### Lemmas about popping a list of keys -/

lemma pop_snd_cache (c : Cache) (k : Nat) :
    (Cache.pop c k).2.cache = aerase c.cache k := rfl

lemma pop_snd_lasthit (c : Cache) (k : Nat) :
    (Cache.pop c k).2.lasthit = aerase c.lasthit k := rfl

lemma popAllKeys_cache (ks : List Nat) (c : Cache) :
    (popAllKeys ks c).cache = c.cache.filter (fun p => !(ks.contains p.1)) := by
  induction ks generalizing c with
  | nil => simp [popAllKeys]
  | cons k ks ih =>
    show (popAllKeys ks ((Cache.pop c k).2)).cache = _
    rw [ih, pop_snd_cache]
    show (List.filter _ (List.filter _ c.cache)) = _
    rw [List.filter_filter]
    refine List.filter_congr ?_
    intro a _
    rw [List.contains_cons, Bool.not_or, Bool.and_comm]

lemma popAllKeys_lasthit (ks : List Nat) (c : Cache) :
    (popAllKeys ks c).lasthit = c.lasthit.filter (fun p => !(ks.contains p.1)) := by
  induction ks generalizing c with
  | nil => simp [popAllKeys]
  | cons k ks ih =>
    show (popAllKeys ks ((Cache.pop c k).2)).lasthit = _
    rw [ih, pop_snd_lasthit]
    show (List.filter _ (List.filter _ c.lasthit)) = _
    rw [List.filter_filter]
    refine List.filter_congr ?_
    intro a _
    rw [List.contains_cons, Bool.not_or, Bool.and_comm]

lemma popAllKeys_misc (ks : List Nat) (c : Cache) :
    (popAllKeys ks c).onmiss = c.onmiss ∧
    (popAllKeys ks c).maxtime = c.maxtime ∧
    (popAllKeys ks c).isfini = c.isfini ∧
    (popAllKeys ks c).schevt = c.schevt := by
  induction ks generalizing c with
  | nil => exact ⟨rfl, rfl, rfl, rfl⟩
  | cons k ks ih =>
    show (popAllKeys ks ((Cache.pop c k).2)).onmiss = _ ∧ _
    exact ih ((Cache.pop c k).2)

/-- Popping exactly the keys of the `cache` dict, in order, empties it,
fires `cache:flush` then `cache:pop` (carrying the stored value) for each
entry, and erases those keys from `lasthit`. -/
lemma popAllKeys_of_keys (l : List (Nat × PyVal)) (c : Cache)
    (hc : c.cache = l) (hnd : (keysOf l).Nodup) :
    (popAllKeys (keysOf l) c).cache = [] ∧
    (popAllKeys (keysOf l) c).events
      = c.events
        ++ l.flatMap (fun p => [CEvent.evtFlush p.1 p.2, CEvent.evtPop p.1 p.2]) := by
  induction l generalizing c with
  | nil =>
    refine ⟨?_, by simp [popAllKeys, keysOf]⟩
    show c.cache = []
    exact hc
  | cons p rest ih =>
    have hk : keysOf (p :: rest) = p.1 :: keysOf rest := rfl
    have hnd2 : (keysOf rest).Nodup := by
      rw [hk] at hnd
      exact hnd.of_cons
    have hnotin : p.1 ∉ keysOf rest := by
      rw [hk] at hnd
      exact (List.nodup_cons.mp hnd).1
    have hcont : (keysOf rest).contains p.1 = false := by simpa using hnotin
    have hval : alookup c.cache p.1 = some p.2 := by
      rw [hc]
      simp [alookup]
    have hc1 : (Cache.pop c p.1).2.cache = rest := by
      rw [pop_snd_cache, hc]
      show List.filter _ (p :: rest) = rest
      rw [List.filter_cons]
      have hpp : (!(p.1 == p.1)) = false := by simp
      rw [hpp]
      simp only [Bool.false_eq_true, if_false]
      exact aerase_of_not_contains hcont
    have hev1 : (Cache.pop c p.1).2.events
        = c.events ++ [CEvent.evtFlush p.1 p.2, CEvent.evtPop p.1 p.2] := by
      show c.events
          ++ [CEvent.evtFlush p.1 ((alookup c.cache p.1).getD PyVal.pynone),
              CEvent.evtPop p.1 ((alookup c.cache p.1).getD PyVal.pynone)] = _
      rw [hval]
      rfl
    have hstep : popAllKeys (keysOf (p :: rest)) c
        = popAllKeys (keysOf rest) ((Cache.pop c p.1).2) := rfl
    rw [hstep]
    obtain ⟨ih1, ih2⟩ := ih ((Cache.pop c p.1).2) hc1 hnd2
    refine ⟨ih1, ?_⟩
    rw [ih2, hev1, List.flatMap_cons, ← List.append_assoc]

lemma alookup_aerase_self {α : Type} (l : List (Nat × α)) (k : Nat) :
    alookup (aerase l k) k = none := by
  show alookup (l.filter (fun p => (fun a => !(a == k)) p.1)) k = none
  rw [alookup_filter_key l (fun a => !(a == k)) k]
  simp

/-! ### Case characterizations of `Cache.get` -/

lemma get_hit {c : Cache} {now : ℚ} {k : Nat} {v : PyVal}
    (hlk : alookup c.cache k = some v) (hv : v ≠ missVal) :
    Cache.get c now k = (v, { c with lasthit := aset c.lasthit k now }) := by
  simp only [Cache.get, hlk, Option.getD_some]
  rw [if_pos hv]

lemma get_miss_noresolver {c : Cache} {now : ℚ} {k : Nat}
    (hmiss : (alookup c.cache k).getD missVal = missVal)
    (hm : c.onmiss = none) :
    Cache.get c now k = (PyVal.pynone, c) := by
  simp only [Cache.get, hmiss, hm]
  simp

lemma get_miss_resolver {c : Cache} {now : ℚ} {k : Nat} {f : Nat → PyVal}
    (hmiss : (alookup c.cache k).getD missVal = missVal)
    (hm : c.onmiss = some f) :
    Cache.get c now k
      = (f k, { c with cache := aset c.cache k (f k),
                       lasthit := aset c.lasthit k now }) := by
  simp only [Cache.get, hmiss, hm]
  simp

/-! ### Claim theorems -/

/-- C1 counterexample: with a resolver configured and key `5` absent,
`Cache.get` resolves and stores the value, but fires no `cache:put` event
(the events list stays empty), contradicting the published-event part of the
claim. -/
theorem cache_get_miss_no_put_event_cex :
    (Cache.get (Cache.init (some (fun _ => PyVal.pyint 7)) none) 0 5).1
        = PyVal.pyint 7 ∧
    (Cache.get (Cache.init (some (fun _ => PyVal.pyint 7)) none) 0 5).2.events
        = [] := by
  constructor
  · rfl
  · rfl

/-- C1 (amended): for a key absent from the cache with a miss-resolver
configured, `Cache.get` invokes the resolver, stores the result (even when
the resolver returns the absence sentinel), sets `lasthit[key]` to the
current time, and returns the resolved value; no `cache:put` event is
published (the events list is unchanged). -/
theorem cache_get_miss_resolves (c : Cache) (now : ℚ) (k : Nat)
    (f : Nat → PyVal) (habs : alookup c.cache k = none)
    (hres : c.onmiss = some f) :
    (Cache.get c now k).1 = f k ∧
    alookup (Cache.get c now k).2.cache k = some (f k) ∧
    alookup (Cache.get c now k).2.lasthit k = some now ∧
    (Cache.get c now k).2.events = c.events := by
  have h := @get_miss_resolver c now k f (by rw [habs]; rfl) hres
  rw [h]
  exact ⟨rfl, alookup_aset_self _ _ _, alookup_aset_self _ _ _, rfl⟩

/-- C1 witness: the amended theorem applied to a concrete cache whose
resolver returns the sentinel, showing even the sentinel is stored. -/
theorem cache_get_miss_resolves_witness :
    (Cache.get (Cache.init (some (fun _ => PyVal.emptyTuple)) none) 2 4).1
        = PyVal.emptyTuple ∧
    alookup (Cache.get (Cache.init (some (fun _ => PyVal.emptyTuple)) none) 2 4).2.cache 4
        = some PyVal.emptyTuple ∧
    alookup (Cache.get (Cache.init (some (fun _ => PyVal.emptyTuple)) none) 2 4).2.lasthit 4
        = some 2 ∧
    (Cache.get (Cache.init (some (fun _ => PyVal.emptyTuple)) none) 2 4).2.events
        = (Cache.init (some (fun _ => PyVal.emptyTuple)) none).events :=
  cache_get_miss_resolves (Cache.init (some (fun _ => PyVal.emptyTuple)) none)
    2 4 (fun _ => PyVal.emptyTuple) rfl rfl

/-- C2 counterexample: storing the empty tuple (which is the module-level
`miss` sentinel, interned by CPython) makes the subsequent `get` treat the
entry as a miss, so with no resolver configured it returns `None`, not the
stored value. -/
theorem cache_put_get_sentinel_cex :
    (Cache.get (Cache.put (Cache.init none none) 0 3 PyVal.emptyTuple) 1 3).1
        = PyVal.pynone ∧
    (Cache.get (Cache.put (Cache.init none none) 0 3 PyVal.emptyTuple) 1 3).1
        ≠ PyVal.emptyTuple := by
  constructor
  · rfl
  · intro h
    exact PyVal.noConfusion h

/-- C2 (amended): for every key `k` and every value `v` other than the
`miss` sentinel (the empty tuple), `put(k, v)` followed by `get(k)` returns
`v`. -/
theorem cache_put_get_roundtrip (c : Cache) (now1 now2 : ℚ) (k : Nat)
    (v : PyVal) (hv : v ≠ PyVal.emptyTuple) :
    (Cache.get (Cache.put c now1 k v) now2 k).1 = v := by
  have hlk : alookup (Cache.put c now1 k v).cache k = some v := by
    show alookup (aset c.cache k v) k = some v
    exact alookup_aset_self _ _ _
  rw [get_hit hlk hv]

/-- C2 witness: the amended round-trip at a concrete key and value. -/
theorem cache_put_get_roundtrip_witness :
    (Cache.get (Cache.put (Cache.init none none) 0 3 (PyVal.pyint 7)) 1 3).1
        = PyVal.pyint 7 :=
  cache_put_get_roundtrip (Cache.init none none) 0 1 3 (PyVal.pyint 7)
    (by intro h; exact PyVal.noConfusion h)

/-- C9: `Cache.pop(key)` removes the key from both `cache` and `lasthit`,
fires `cache:flush` then `cache:pop` (both carrying the returned value), and
on an absent key returns `None` (the no-value default) while leaving both
dictionaries unchanged, raising no error. -/
theorem cache_pop_spec (c : Cache) (k : Nat) :
    alookup (Cache.pop c k).2.cache k = none ∧
    alookup (Cache.pop c k).2.lasthit k = none ∧
    (Cache.pop c k).2.events
      = c.events ++ [CEvent.evtFlush k (Cache.pop c k).1,
                     CEvent.evtPop k (Cache.pop c k).1] ∧
    (alookup c.cache k = none →
      (Cache.pop c k).1 = PyVal.pynone ∧ (Cache.pop c k).2.cache = c.cache) ∧
    (alookup c.lasthit k = none → (Cache.pop c k).2.lasthit = c.lasthit) := by
  refine ⟨?_, ?_, rfl, ?_, ?_⟩
  · rw [pop_snd_cache]
    exact alookup_aerase_self _ _
  · rw [pop_snd_lasthit]
    exact alookup_aerase_self _ _
  · intro habs
    constructor
    · show (alookup c.cache k).getD PyVal.pynone = PyVal.pynone
      rw [habs]
      rfl
    · rw [pop_snd_cache]
      exact aerase_of_not_contains ((alookup_eq_none_iff _ _).mp habs)
  · intro habs
    rw [pop_snd_lasthit]
    exact aerase_of_not_contains ((alookup_eq_none_iff _ _).mp habs)

/-- C9 witness: `pop` on an absent key of the fresh cache returns `None`,
leaves the maps unchanged, and still fires flush then pop. -/
theorem cache_pop_spec_witness :
    alookup (Cache.pop (Cache.init none none) 2).2.cache 2 = none ∧
    (Cache.pop (Cache.init none none) 2).1 = PyVal.pynone ∧
    (Cache.pop (Cache.init none none) 2).2.events
      = [CEvent.evtFlush 2 PyVal.pynone, CEvent.evtPop 2 PyVal.pynone] := by
  have h := cache_pop_spec (Cache.init none none) 2
  refine ⟨h.1, (h.2.2.2.1 rfl).1, ?_⟩
  have he := h.2.2.1
  rw [(h.2.2.2.1 rfl).1] at he
  exact he

lemma applyCacheOp_keys (c : Cache) (hinv : keysOf c.cache = keysOf c.lasthit)
    (op : CacheOp) :
    keysOf (applyCacheOp c op).cache = keysOf (applyCacheOp c op).lasthit := by
  cases op with
  | opPut k v now =>
    show keysOf (aset c.cache k v) = keysOf (aset c.lasthit k now)
    rw [keysOf_aset, keysOf_aset, hinv]
  | opGet k now =>
    show keysOf ((Cache.get c now k).2).cache = keysOf ((Cache.get c now k).2).lasthit
    rcases hlk : alookup c.cache k with _ | v
    · rcases hm : c.onmiss with _ | f
      · rw [get_miss_noresolver (by rw [hlk]; rfl) hm]
        exact hinv
      · rw [get_miss_resolver (by rw [hlk]; rfl) hm]
        show keysOf (aset c.cache k (f k)) = keysOf (aset c.lasthit k now)
        rw [keysOf_aset, keysOf_aset, hinv]
    · by_cases hv : v = missVal
      · rcases hm : c.onmiss with _ | f
        · rw [get_miss_noresolver (by rw [hlk, hv]; rfl) hm]
          exact hinv
        · rw [get_miss_resolver (by rw [hlk, hv]; rfl) hm]
          show keysOf (aset c.cache k (f k)) = keysOf (aset c.lasthit k now)
          rw [keysOf_aset, keysOf_aset, hinv]
      · rw [get_hit hlk hv]
        show keysOf c.cache = keysOf (aset c.lasthit k now)
        rw [keysOf_aset]
        have hcont : (keysOf c.lasthit).contains k = true := by
          rw [← hinv]
          exact alookup_contains hlk
        rw [hcont]
        exact hinv
  | opPop k =>
    show keysOf (aerase c.cache k) = keysOf (aerase c.lasthit k)
    rw [keysOf_aerase, keysOf_aerase, hinv]
  | opClear =>
    show keysOf ([] : List (Nat × PyVal)) = keysOf ([] : List (Nat × ℚ))
    rfl

/-- C4: starting from a freshly constructed cache (any resolver, any
`maxtime`), every sequence of `put`, `get` (including completed miss
resolutions), `pop` and `clear` operations leaves the key domain of the
`cache` dict equal to the key domain of the `lasthit` dict: a key is present
in one iff it is present in the other. -/
theorem cache_entries_lasthit_invariant (f : Option (Nat → PyVal))
    (mt : Option ℚ) (ops : List CacheOp) :
    keysOf (runCacheOps (Cache.init f mt) ops).cache
      = keysOf (runCacheOps (Cache.init f mt) ops).lasthit := by
  have hrun : ∀ (l : List CacheOp) (c : Cache),
      keysOf c.cache = keysOf c.lasthit →
      keysOf (runCacheOps c l).cache = keysOf (runCacheOps c l).lasthit := by
    intro l
    induction l with
    | nil => intro c h; exact h
    | cons op rest ih =>
      intro c h
      exact ih (applyCacheOp c op) (applyCacheOp_keys c h op)
  exact hrun ops (Cache.init f mt) rfl

lemma alookup_filter_key_neg {α : Type} (l : List (Nat × α)) (qk : Nat → Bool)
    (k : Nat) (h : qk k = false) :
    alookup (l.filter (fun p => qk p.1)) k = none := by
  rw [alookup_filter_key l qk k, h]
  rfl

lemma alookup_filter_key_pos {α : Type} (l : List (Nat × α)) (qk : Nat → Bool)
    (k : Nat) (h : qk k = true) :
    alookup (l.filter (fun p => qk p.1)) k = alookup l k := by
  rw [alookup_filter_key l qk k, h]
  rfl

lemma hits_contains_true {cl : List (Nat × ℚ)} {k : Nat} {t cutoff : ℚ}
    (hlk : alookup cl k = some t) (hlt : t < cutoff) :
    (keysOf (cl.filter (fun p => decide (p.2 < cutoff)))).contains k = true := by
  have hmem : (k, t) ∈ cl := alookup_mem hlk
  have hf : (k, t) ∈ cl.filter (fun p => decide (p.2 < cutoff)) :=
    List.mem_filter.mpr ⟨hmem, by simpa using hlt⟩
  have hk : k ∈ keysOf (cl.filter (fun p => decide (p.2 < cutoff))) :=
    List.mem_map_of_mem Prod.fst hf
  simpa using hk

lemma hits_contains_false {cl : List (Nat × ℚ)} {k : Nat} {t cutoff : ℚ}
    (hnd : (keysOf cl).Nodup) (hlk : alookup cl k = some t)
    (hge : ¬ t < cutoff) :
    (keysOf (cl.filter (fun p => decide (p.2 < cutoff)))).contains k = false := by
  by_contra hco
  have htrue : (keysOf (cl.filter (fun p => decide (p.2 < cutoff)))).contains k
      = true := by
    rcases Bool.eq_false_or_eq_true
        ((keysOf (cl.filter (fun p => decide (p.2 < cutoff)))).contains k) with h | h
    · exact h
    · exact absurd h hco
  have hco2 : k ∈ keysOf (cl.filter (fun p => decide (p.2 < cutoff))) := by
    simpa using htrue
  obtain ⟨p, hpmem, hpk⟩ := List.mem_map.mp hco2
  obtain ⟨hpin, hplt⟩ := List.mem_filter.mp hpmem
  obtain ⟨a, b⟩ := p
  simp only at hpk
  subst hpk
  have hab : alookup cl a = some b := mem_alookup_of_nodup hnd hpin
  rw [hlk] at hab
  injection hab with hh
  rw [hh] at hge
  exact hge (by simpa using hplt)

lemma checkCacheTimes_eq (c : Cache) (now mt : ℚ) (hmt : c.maxtime = some mt) :
    Cache.checkCacheTimes c now
      = (popAllKeys (keysOf (c.lasthit.filter (fun p => decide (p.2 < now - mt)))) c,
         if c.isfini then none else some (mt / 10)) := by
  obtain ⟨cc, cl, com, cmt, cf, cs, ce⟩ := c
  have hmt2 : cmt = some mt := hmt
  subst hmt2
  unfold Cache.checkCacheTimes
  dsimp only
  rw [(popAllKeys_misc (keysOf (List.filter (fun p => decide (p.2 < now - mt)) cl))
      ⟨cc, cl, com, some mt, cf, cs, ce⟩).2.2.1]
  by_cases hf : cf = true
  · rw [if_pos hf, if_pos hf]
  · rw [if_neg hf, if_neg hf]

/-- C5: for a cache with `maxtime = mt` (and distinct `lasthit` keys), one
sweep run at time `now` pops exactly the keys whose `lasthit` timestamp is
strictly below the cutoff `now - mt` (removing them from both dicts and
leaving every other entry untouched), and re-schedules itself `mt / 10`
seconds later unless the cache has been shut down. -/
theorem cache_sweep_spec (c : Cache) (now mt : ℚ)
    (hmt : c.maxtime = some mt) (hnd : (keysOf c.lasthit).Nodup) :
    (∀ k t, alookup c.lasthit k = some t → t < now - mt →
        alookup (Cache.checkCacheTimes c now).1.lasthit k = none ∧
        alookup (Cache.checkCacheTimes c now).1.cache k = none) ∧
    (∀ k t, alookup c.lasthit k = some t → ¬ t < now - mt →
        alookup (Cache.checkCacheTimes c now).1.lasthit k = some t ∧
        alookup (Cache.checkCacheTimes c now).1.cache k = alookup c.cache k) ∧
    (Cache.checkCacheTimes c now).2
      = (if c.isfini then none else some (mt / 10)) := by
  rw [checkCacheTimes_eq c now mt hmt]
  refine ⟨?_, ?_, rfl⟩
  · intro k t hlk hlt
    have hco := hits_contains_true hlk hlt
    constructor
    · rw [popAllKeys_lasthit]
      exact alookup_filter_key_neg c.lasthit
        (fun a => !((keysOf (c.lasthit.filter
          (fun p => decide (p.2 < now - mt)))).contains a)) k
        (by rw [show (fun a => !((keysOf (c.lasthit.filter
          (fun p => decide (p.2 < now - mt)))).contains a)) k
            = !((keysOf (c.lasthit.filter
              (fun p => decide (p.2 < now - mt)))).contains k) from rfl, hco]; rfl)
    · rw [popAllKeys_cache]
      exact alookup_filter_key_neg c.cache
        (fun a => !((keysOf (c.lasthit.filter
          (fun p => decide (p.2 < now - mt)))).contains a)) k
        (by rw [show (fun a => !((keysOf (c.lasthit.filter
          (fun p => decide (p.2 < now - mt)))).contains a)) k
            = !((keysOf (c.lasthit.filter
              (fun p => decide (p.2 < now - mt)))).contains k) from rfl, hco]; rfl)
  · intro k t hlk hge
    have hco := hits_contains_false hnd hlk hge
    constructor
    · rw [popAllKeys_lasthit]
      rw [alookup_filter_key_pos c.lasthit
        (fun a => !((keysOf (c.lasthit.filter
          (fun p => decide (p.2 < now - mt)))).contains a)) k
        (by rw [show (fun a => !((keysOf (c.lasthit.filter
          (fun p => decide (p.2 < now - mt)))).contains a)) k
            = !((keysOf (c.lasthit.filter
              (fun p => decide (p.2 < now - mt)))).contains k) from rfl, hco]; rfl)]
      exact hlk
    · rw [popAllKeys_cache]
      exact alookup_filter_key_pos c.cache
        (fun a => !((keysOf (c.lasthit.filter
          (fun p => decide (p.2 < now - mt)))).contains a)) k
        (by rw [show (fun a => !((keysOf (c.lasthit.filter
          (fun p => decide (p.2 < now - mt)))).contains a)) k
            = !((keysOf (c.lasthit.filter
              (fun p => decide (p.2 < now - mt)))).contains k) from rfl, hco]; rfl)

/-- A concrete cache for exercising the sweep: key 1 last hit at time 0,
key 2 at time 10, `maxtime = 5`. -/
def sweepWitnessCache : Cache :=
  { cache := [(1, PyVal.pyint 1), (2, PyVal.pyint 2)],
    lasthit := [(1, 0), (2, 10)],
    onmiss := none, maxtime := some 5, isfini := false, schevt := none,
    events := [] }

/-- C5 witness: sweeping at time 8 with `maxtime = 5` (cutoff 3) pops key 1
(last hit 0 < 3) from both dicts, keeps key 2 (last hit 10), and re-schedules
after `5 / 10` seconds. -/
theorem cache_sweep_spec_witness :
    alookup (Cache.checkCacheTimes sweepWitnessCache 8).1.lasthit 1 = none ∧
    alookup (Cache.checkCacheTimes sweepWitnessCache 8).1.cache 1 = none ∧
    alookup (Cache.checkCacheTimes sweepWitnessCache 8).1.lasthit 2 = some 10 ∧
    (Cache.checkCacheTimes sweepWitnessCache 8).2 = some (5 / 10) := by
  have h := cache_sweep_spec sweepWitnessCache 8 5 rfl (by decide)
  refine ⟨(h.1 1 0 rfl (by norm_num)).1, (h.1 1 0 rfl (by norm_num)).2,
          (h.2.1 2 10 rfl (by norm_num)).1, h.2.2.trans rfl⟩

lemma onCacheFini_eq (c : Cache) :
    Cache.onCacheFini c
      = (popAllKeys (keysOf c.cache) c,
         (popAllKeys (keysOf c.cache) c).schevt) := by
  unfold Cache.onCacheFini
  cases hterm : (popAllKeys (keysOf c.cache) c).schevt <;> simp [hterm]

/-- C6: shutdown pops every remaining key (each firing `cache:flush` then
`cache:pop` with its stored value, in order, leaving `entries` empty) and the
handle passed to the scheduler cancel call is exactly `schevt` when present
(`none` means no cancel call is made). -/
theorem cache_fini_spec (c : Cache) (hnd : (keysOf c.cache).Nodup) :
    (Cache.onCacheFini c).1.cache = [] ∧
    (Cache.onCacheFini c).1.events
      = c.events
        ++ c.cache.flatMap
            (fun p => [CEvent.evtFlush p.1 p.2, CEvent.evtPop p.1 p.2]) ∧
    (Cache.onCacheFini c).2 = c.schevt := by
  obtain ⟨h1, h2⟩ := popAllKeys_of_keys c.cache c rfl hnd
  rw [onCacheFini_eq]
  exact ⟨h1, h2, (popAllKeys_misc _ _).2.2.2⟩

/-- A concrete cache holding one entry, with an outstanding scheduler
handle 3, for exercising shutdown. -/
def finiWitnessCache : Cache :=
  { cache := [(1, PyVal.pyint 4)], lasthit := [(1, 0)], onmiss := none,
    maxtime := some 5, isfini := true, schevt := some 3, events := [] }

/-- C6 witness: shutting down a cache with one entry empties it, fires flush
then pop for the entry, and cancels the stored handle 3. -/
theorem cache_fini_spec_witness :
    (Cache.onCacheFini finiWitnessCache).1.cache = [] ∧
    (Cache.onCacheFini finiWitnessCache).1.events
      = [CEvent.evtFlush 1 (PyVal.pyint 4), CEvent.evtPop 1 (PyVal.pyint 4)] ∧
    (Cache.onCacheFini finiWitnessCache).2 = some 3 := by
  have h := cache_fini_spec finiWitnessCache (by decide)
  exact ⟨h.1, by simpa using h.2.1, h.2.2⟩

lemma runQOps_pending {α : Type} (ops : List (QOp α)) (q : BulkQueue α)
    (h : q.closed = false) :
    (runQOps q ops).pending = q.pending ++ ops.flatMap QOp.items ∧
    (runQOps q ops).closed = false := by
  induction ops generalizing q with
  | nil => exact ⟨by simp [runQOps], h⟩
  | cons op rest ih =>
    have hstep : (applyQOp q op).pending = q.pending ++ op.items ∧
        (applyQOp q op).closed = false := by
      cases op with
      | qput x => simp [applyQOp, BulkQueue.put, h, QOp.items]
      | qextend xs => simp [applyQOp, BulkQueue.extend, h, QOp.items]
    obtain ⟨hp, hc⟩ := hstep
    obtain ⟨ih1, ih2⟩ := ih (applyQOp q op) hc
    refine ⟨?_, ih2⟩
    rw [show runQOps q (op :: rest) = runQOps (applyQOp q op) rest from rfl,
        ih1, hp, List.flatMap_cons, List.append_assoc]

lemma runQOps_get_drain {α : Type} (ops : List (QOp α)) (q : BulkQueue α)
    (now : ℚ) (h : q.closed = false) :
    ((runQOps q ops).get now).1 = q.pending ++ ops.flatMap QOp.items ∧
    ((runQOps q ops).get now).2.pending = [] := by
  obtain ⟨hp, _⟩ := runQOps_pending ops q h
  unfold BulkQueue.get
  by_cases he : (runQOps q ops).pending.isEmpty
  · have hnil : (runQOps q ops).pending = [] := by
      cases hpe : (runQOps q ops).pending with
      | nil => rfl
      | cons a l => rw [hpe] at he; exact absurd he (by simp [List.isEmpty])
    rw [if_pos he]
    constructor
    · show ([] : List α) = q.pending ++ ops.flatMap QOp.items
      rw [← hp, hnil]
    · show (runQOps q ops).pending = []
      exact hnil
  · rw [if_neg he]
    exact ⟨hp, rfl⟩

/-- C7: starting from any open `BulkQueue`, after any sequence of `put` and
`extend` calls a successful `get` drains and returns the prior pending items
followed by every enqueued item in enqueue order, each `extend` batch
appearing contiguously (the returned list is the concatenation of the
batches), and leaves `pending` empty. -/
theorem bulkqueue_fifo_drain (α : Type) (q : BulkQueue α) (ops : List (QOp α))
    (now : ℚ) (h : q.closed = false) :
    ((runQOps q ops).get now).1 = q.pending ++ ops.flatMap QOp.items ∧
    ((runQOps q ops).get now).2.pending = [] :=
  runQOps_get_drain ops q now h

/-- C7 witness: `put(1); extend([2,3])` then `get` returns `[1, 2, 3]`, as in
`test_queue_bulk`. -/
theorem bulkqueue_fifo_drain_witness :
    ((runQOps (BulkQueue.mk ([] : List Nat) 0 false)
        [QOp.qput 1, QOp.qextend [2, 3]]).get 1).1 = [1, 2, 3] := by
  have h := bulkqueue_fifo_drain Nat (BulkQueue.mk [] 0 false)
    [QOp.qput 1, QOp.qextend [2, 3]] 1 rfl
  rw [h.1]
  rfl

/-- C8: `hyber` exports the current pending items and leaves the queue state
fully unchanged; a later drain returns the snapshotted items followed by
anything enqueued afterward, in order, exactly as if hibernation had not
occurred. -/
theorem bulkqueue_hyber_nondestructive (α : Type) (q : BulkQueue α)
    (ops : List (QOp α)) (now : ℚ) (h : q.closed = false) :
    (BulkQueue.hyber q).1 = q.pending ∧
    (BulkQueue.hyber q).2 = q ∧
    ((runQOps (BulkQueue.hyber q).2 ops).get now).1
      = (BulkQueue.hyber q).1 ++ ops.flatMap QOp.items :=
  ⟨rfl, rfl, (runQOps_get_drain ops q now h).1⟩

/-- C8 witness: `extend([foo,bar]); hyber; put(baz); extend([faz])` then
`get` returns all four items in order, as in `test_queue_hybernate`
(items embedded as numbers 10, 11, 12, 13). -/
theorem bulkqueue_hyber_nondestructive_witness :
    (BulkQueue.hyber (runQOps (BulkQueue.mk ([] : List Nat) 0 false)
        [QOp.qextend [10, 11]])).1 = [10, 11] ∧
    ((runQOps (BulkQueue.hyber (runQOps (BulkQueue.mk ([] : List Nat) 0 false)
        [QOp.qextend [10, 11]])).2
        [QOp.qput 12, QOp.qextend [13]]).get 1).1 = [10, 11, 12, 13] := by
  have h := bulkqueue_hyber_nondestructive Nat
    (runQOps (BulkQueue.mk ([] : List Nat) 0 false) [QOp.qextend [10, 11]])
    [QOp.qput 12, QOp.qextend [13]] 1 rfl
  constructor
  · rw [h.1]
    rfl
  · rw [h.2.2, h.1]
    rfl

lemma mem_aset {α : Type} {p : Nat × α} {l : List (Nat × α)} {k : Nat} {v : α}
    (h : p ∈ aset l k v) : p ∈ l ∨ p = (k, v) := by
  induction l with
  | nil =>
    simp [aset] at h
    exact Or.inr h
  | cons q rest ih =>
    by_cases hq : q.1 = k
    · simp only [aset, if_pos hq] at h
      rcases List.mem_cons.mp h with h1 | h1
      · subst h1
        right
        rw [← hq]
      · exact Or.inl (List.mem_cons_of_mem _ h1)
    · simp only [aset, if_neg hq] at h
      rcases List.mem_cons.mp h with h1 | h1
      · exact Or.inl (h1 ▸ List.mem_cons_self _ _)
      · rcases ih h1 with h2 | h2
        · exact Or.inl (List.mem_cons_of_mem _ h2)
        · exact Or.inr h2

lemma mem_keysOf_aset {α : Type} (l : List (Nat × α)) (k : Nat) (v : α) :
    k ∈ keysOf (aset l k v) := by
  rw [keysOf_aset]
  by_cases hc : (keysOf l).contains k
  · rw [if_pos hc]
    simpa using hc
  · rw [if_neg hc]
    exact List.mem_append_right _ (List.mem_singleton_self k)

lemma mem_keysOf_aset_of_mem {α : Type} {a : Nat} {l : List (Nat × α)}
    (k : Nat) (v : α) (h : a ∈ keysOf l) : a ∈ keysOf (aset l k v) := by
  rw [keysOf_aset]
  by_cases hc : (keysOf l).contains k
  · rw [if_pos hc]
    exact h
  · rw [if_neg hc]
    exact List.mem_append_left _ h

/-- The `KeyCache` invariant: no key was looked up twice, every looked-up key
is stored, and every stored value is what the fixed `lookmeth` returns for
its key. -/
def KeyCacheInv (c : KeyCache) : Prop :=
  c.calls.Nodup ∧ (∀ k, k ∈ c.calls → k ∈ keysOf c.data) ∧
  (∀ p, p ∈ c.data → p.2 = c.lookmeth p.1)

lemma keyget_hit {c : KeyCache} {k : Nat} {v : PyVal}
    (h : alookup c.data k = some v) : KeyCache.get c k = (v, c) := by
  unfold KeyCache.get KeyCache.getitem
  rw [h]

lemma keyget_miss {c : KeyCache} {k : Nat}
    (h : alookup c.data k = none) :
    KeyCache.get c k
      = (c.lookmeth k, { c with data := aset c.data k (c.lookmeth k),
                                calls := c.calls ++ [k] }) := by
  unfold KeyCache.get KeyCache.getitem
  rw [h]

lemma keyget_step (c : KeyCache) (k : Nat) (hinv : KeyCacheInv c) :
    KeyCacheInv (KeyCache.get c k).2 ∧
    (KeyCache.get c k).2.lookmeth = c.lookmeth ∧
    (∀ a, a ∈ keysOf c.data → a ∈ keysOf (KeyCache.get c k).2.data) ∧
    k ∈ keysOf (KeyCache.get c k).2.data := by
  cases hlk : alookup c.data k with
  | some v =>
    rw [keyget_hit hlk]
    exact ⟨hinv, rfl, fun a ha => ha, by simpa using alookup_contains hlk⟩
  | none =>
    rw [keyget_miss hlk]
    have hkeys : k ∉ keysOf c.data := by
      simpa using (alookup_eq_none_iff _ _).mp hlk
    have hnotin : k ∉ c.calls := fun hk => hkeys (hinv.2.1 k hk)
    refine ⟨⟨?_, ?_, ?_⟩, rfl, ?_, ?_⟩
    · refine (List.nodup_append).mpr ⟨hinv.1, List.nodup_singleton k, ?_⟩
      intro a ha hb
      rw [List.mem_singleton] at hb
      subst hb
      exact hnotin ha
    · intro a ha
      rcases List.mem_append.mp ha with h1 | h1
      · exact mem_keysOf_aset_of_mem k (c.lookmeth k) (hinv.2.1 a h1)
      · rw [List.mem_singleton] at h1
        subst h1
        exact mem_keysOf_aset c.data a (c.lookmeth a)
    · intro p hp
      rcases mem_aset hp with h1 | h1
      · exact hinv.2.2 p h1
      · subst h1
        rfl
    · exact fun a ha => mem_keysOf_aset_of_mem k (c.lookmeth k) ha
    · exact mem_keysOf_aset c.data k (c.lookmeth k)

lemma runKeyGets_inv (ks : List Nat) (c : KeyCache) (hinv : KeyCacheInv c) :
    KeyCacheInv (runKeyGets c ks) ∧
    (runKeyGets c ks).lookmeth = c.lookmeth ∧
    (∀ a, a ∈ keysOf c.data → a ∈ keysOf (runKeyGets c ks).data) ∧
    (∀ a, a ∈ ks → a ∈ keysOf (runKeyGets c ks).data) := by
  induction ks generalizing c with
  | nil => exact ⟨hinv, rfl, fun a ha => ha, fun a ha => absurd ha (List.not_mem_nil a)⟩
  | cons k rest ih =>
    obtain ⟨h1, h2, h3, h4⟩ := keyget_step c k hinv
    obtain ⟨i1, i2, i3, i4⟩ := ih (KeyCache.get c k).2 h1
    have hstep : runKeyGets c (k :: rest) = runKeyGets (KeyCache.get c k).2 rest := rfl
    rw [hstep]
    refine ⟨i1, i2.trans h2, fun a ha => i3 a (h3 a ha), ?_⟩
    intro a ha
    rcases List.mem_cons.mp ha with h | h
    · subst h
      exact i3 a h4
    · exact i4 a h

/-- C10: starting from a fresh `KeyCache` over any fixed lookup function,
any sequence of accesses invokes the lookup at most once per key (the call
log has no duplicates); every accessed key ends up stored with the lookup
result (even when that result is `None`), and a further access for it
returns the stored value with the state completely unchanged (so no further
lookup happens). -/
theorem keycache_lookup_once (f : Nat → PyVal) (ks : List Nat) :
    (runKeyGets (KeyCache.init f) ks).calls.Nodup ∧
    (∀ k, k ∈ ks →
      alookup (runKeyGets (KeyCache.init f) ks).data k = some (f k) ∧
      KeyCache.get (runKeyGets (KeyCache.init f) ks) k
        = (f k, runKeyGets (KeyCache.init f) ks)) := by
  have hinit : KeyCacheInv (KeyCache.init f) := by
    refine ⟨List.nodup_nil, ?_, ?_⟩
    · intro a ha
      exact absurd ha (List.not_mem_nil a)
    · intro p hp
      exact absurd hp (List.not_mem_nil p)
  obtain ⟨h1, h2, h3, h4⟩ := runKeyGets_inv ks (KeyCache.init f) hinit
  refine ⟨h1.1, ?_⟩
  intro k hk
  have hkk : k ∈ keysOf (runKeyGets (KeyCache.init f) ks).data := h4 k hk
  obtain ⟨v, hv⟩ : ∃ v, alookup (runKeyGets (KeyCache.init f) ks).data k = some v := by
    cases hl : alookup (runKeyGets (KeyCache.init f) ks).data k with
    | none => exact absurd hkk (by simpa using (alookup_eq_none_iff _ _).mp hl)
    | some v => exact ⟨v, rfl⟩
  have hval : v = (runKeyGets (KeyCache.init f) ks).lookmeth k :=
    h1.2.2 (k, v) (alookup_mem hv)
  rw [h2] at hval
  have hv2 : alookup (runKeyGets (KeyCache.init f) ks).data k = some (f k) := by
    rw [hv]
    exact congrArg some hval
  exact ⟨hv2, keyget_hit hv2⟩

/-- C10 witness: two accesses for key 4 with a lookup that returns `None`:
the lookup runs once, `None` is stored, and the second access returns it
with the cache unchanged. -/
theorem keycache_lookup_once_witness :
    (runKeyGets (KeyCache.init (fun _ => PyVal.pynone)) [4, 4]).calls.Nodup ∧
    alookup (runKeyGets (KeyCache.init (fun _ => PyVal.pynone)) [4, 4]).data 4
      = some PyVal.pynone ∧
    KeyCache.get (runKeyGets (KeyCache.init (fun _ => PyVal.pynone)) [4, 4]) 4
      = (PyVal.pynone, runKeyGets (KeyCache.init (fun _ => PyVal.pynone)) [4, 4]) := by
  have h := keycache_lookup_once (fun _ => PyVal.pynone) [4, 4]
  exact ⟨h.1, (h.2 4 (by decide)).1, (h.2 4 (by decide)).2⟩
